import Mathlib

/-!
Verification development for the auto-phone-scheduler frontend stream
consumers and step parsers.

The definitions below are shallow embeddings of:
  * `parseActionToObject` (src/frontend/src/components/ChatSteps.tsx, lines 32-82),
  * `parseStepData` and `convertStepsToChatItems`
    (src/frontend/src/pages/ExecutionDetail.tsx, lines 23-141),
  * the SSE stream listeners of ExecutionDetail (lines 190-232) and the
    `executeStream` event loop of Debug (src/frontend/src/pages/Debug.tsx,
    lines 60-254), together with `handleConfirmSensitive` and
    `handleCancelSensitive` (lines 282-310),
  * the `ScreenshotViewer` polling component (src/unnamed/part_003) and the
    fallback watchdog of the `ScrcpyPlayer` component
    (src/frontend/src/components/Layout.tsx, the document following the
    separator, lines 97-382).

JavaScript runtime conventions used throughout:
  * JS values are modelled by `JsVal`; `JsVal.undef` is `undefined` and
    `JsVal.null` is `null`.  Numbers are modelled by `Int` (the code only
    ever tests truthiness of a number input, and `NaN` behaves exactly like
    `0` there, so no float semantics are needed); numbers produced by
    `JSON.parse` are kept as their source lexeme (`JsVal.numberLex`) since
    no verified property inspects them.
  * Wall-clock derived data (`Date.now()` item ids, timestamps) is not
    modelled: chat items carry a numeric id only where the source derives it
    from the running `id++` counter (ExecutionDetail) and `0` otherwise.
-/

namespace AutoPhone

/-- ASCII `\w` character class of JavaScript regexes: `[A-Za-z0-9_]`. -/
def isWordChar (c : Char) : Bool := c.isAlpha || c.isDigit || c == '_'

/-- ASCII `\d` character class. -/
def isDigitChar (c : Char) : Bool := c.isDigit

/-- The single-quote character, written via its code point. -/
def sqChar : Char := Char.ofNat 39

/-- Whitespace recognised by JavaScript `String.prototype.trim`
(exotic Unicode space characters are omitted; no claim depends on them). -/
def isJsSpace (c : Char) : Bool :=
  c == ' ' || c == '\t' || c == '\n' || c == '\r' || c == '\x0b' || c == '\x0c' || c == '\xa0'

/-- `trim` on a character list: drop JS whitespace from both ends. -/
def trimChars (cs : List Char) : List Char :=
  ((cs.dropWhile isJsSpace).reverse.dropWhile isJsSpace).reverse

/-- JavaScript `s.trim()`. -/
def jsTrim (s : String) : String := String.mk (trimChars s.data)

/-- Model of JavaScript values as they flow through the parsing code. -/
inductive JsVal where
  | undef : JsVal
  | null : JsVal
  | boolean : Bool → JsVal
  | number : Int → JsVal
  | numberLex : String → JsVal
  | str : String → JsVal
  | obj : List (String × JsVal) → JsVal
  | arr : List JsVal → JsVal

/-- JavaScript truthiness (`!v` is `!jsTruthy v`).  `numberLex` values only
arise inside `JSON.parse` results and are never tested for truthiness by the
embedded code; any non-null object is truthy. -/
def jsTruthy : JsVal → Bool
  | .undef => false
  | .null => false
  | .boolean b => b
  | .number n => n != 0
  | .numberLex _ => true
  | .str s => s != ""
  | .obj _ => true
  | .arr _ => true

/-- Read a field of a JS object (first binding wins, as in a JS object a key
occurs at most once). -/
def getField (v : JsVal) (k : String) : Option JsVal :=
  match v with
  | .obj fs => (fs.find? (fun p => p.1 == k)).map (fun p => p.2)
  | _ => none

/-- JS object property write `o[k] = v`: overwrite in place if the key
exists, otherwise append (insertion order is preserved). -/
def setField (fs : List (String × JsVal)) (k : String) (v : JsVal) : List (String × JsVal) :=
  if fs.any (fun p => p.1 == k) then
    fs.map (fun p => if p.1 == k then (k, v) else p)
  else
    fs ++ [(k, v)]

/-! ### JSON.parse

A JSON parser faithful to the ECMA-404 grammar accepted by `JSON.parse`.
Only the success/failure behaviour and the object structure of the result are
ever inspected by the verified properties; string escapes are decoded
(`\uXXXX` sequences that do not form a Unicode scalar value are replaced by
U+FFFD, which cannot affect any verified property), and numbers are kept as
their source lexeme. -/

/-- JSON whitespace (`ws` of ECMA-404). -/
def isJsonWs (c : Char) : Bool := c == ' ' || c == '\t' || c == '\n' || c == '\r'

/-- Hexadecimal digit value (code-point arithmetic: 0x30-0x39 are the
digits, 0x61-0x66 and 0x41-0x46 the lower/upper letters). -/
def hexVal (ch : Char) : Option Nat :=
  let n := ch.toNat
  if 0x30 ≤ n && n ≤ 0x39 then some (n - 0x30)
  else if 0x61 ≤ n && n ≤ 0x66 then some (n - 0x57)
  else if 0x41 ≤ n && n ≤ 0x46 then some (n - 0x37)
  else none

/-- Decode the four hex digits of a `\uXXXX` escape. -/
def readHex4 : List Char → Option (Nat × List Char)
  | a :: b :: c :: d :: rest =>
    match hexVal a, hexVal b, hexVal c, hexVal d with
    | some x, some y, some z, some w => some (((x * 16 + y) * 16 + z) * 16 + w, rest)
    | _, _, _, _ => none
  | _ => none

/-- Parse the body of a JSON string after the opening quote; returns the
decoded characters and the remainder after the closing quote. -/
def parseJsonStringBody : Nat → List Char → Option (List Char × List Char)
  | 0, _ => none
  | _ + 1, [] => none
  | fuel + 1, c :: cs =>
    if c == '"' then some ([], cs)
    else if c == '\\' then
      match cs with
      | [] => none
      | e :: cs2 =>
        let decoded : Option (Char × List Char) :=
          if e == '"' then some ('"', cs2)
          else if e == '\\' then some ('\\', cs2)
          else if e == '/' then some ('/', cs2)
          else if e == 'b' then some ('\x08', cs2)
          else if e == 'f' then some ('\x0c', cs2)
          else if e == 'n' then some ('\n', cs2)
          else if e == 'r' then some ('\r', cs2)
          else if e == 't' then some ('\t', cs2)
          else if e == 'u' then
            match readHex4 cs2 with
            | some (n, rest) => some (Char.ofNat n, rest)
            | none => none
          else none
        match decoded with
        | some (ch, rest) =>
          match parseJsonStringBody fuel rest with
          | some (body, rest2) => some (ch :: body, rest2)
          | none => none
        | none => none
    else if c.toNat < 0x20 then none
    else
      match parseJsonStringBody fuel cs with
      | some (body, rest2) => some (c :: body, rest2)
      | none => none

/-- Parse the optional fraction and exponent after the integer part of a
JSON number; `sign` and `intPart` are the pieces already consumed. -/
def parseJsonNumberTail (sign intPart : List Char) (cs : List Char) :
    Option (List Char × List Char) :=
  let fracStep : Option (List Char × List Char) :=
    match cs with
    | '.' :: r2 =>
      let ds := r2.takeWhile isDigitChar
      if ds.isEmpty then none else some ('.' :: ds, r2.drop ds.length)
    | _ => some ([], cs)
  match fracStep with
  | none => none
  | some (frac, cs2) =>
    let expStep : Option (List Char × List Char) :=
      match cs2 with
      | e :: r3 =>
        if e == 'e' || e == 'E' then
          let (sgn, r4) :=
            match r3 with
            | '+' :: r5 => (['+'], r5)
            | '-' :: r5 => (['-'], r5)
            | _ => ([], r3)
          let ds := r4.takeWhile isDigitChar
          if ds.isEmpty then none else some (e :: sgn ++ ds, r4.drop ds.length)
        else some ([], cs2)
      | [] => some ([], cs2)
    match expStep with
    | none => none
    | some (ex, cs3) => some (sign ++ intPart ++ frac ++ ex, cs3)

/-- Parse a JSON number, returning its lexeme and the remainder
(`-?(0|[1-9][0-9]*)(\.[0-9]+)?([eE][+-]?[0-9]+)?`). -/
def parseJsonNumber (cs : List Char) : Option (List Char × List Char) :=
  let (sign, cs1) :=
    match cs with
    | '-' :: rest => (['-'], rest)
    | _ => (([] : List Char), cs)
  match cs1 with
  | [] => none
  | c :: rest =>
    if c == '0' then parseJsonNumberTail sign ['0'] rest
    else if c.isDigit then
      let ds := cs1.takeWhile isDigitChar
      parseJsonNumberTail sign ds (cs1.drop ds.length)
    else none

mutual

/-- Parse one JSON value (leading whitespace is consumed). -/
def parseJsonValue (fuel : Nat) (cs : List Char) : Option (JsVal × List Char) :=
  match fuel with
  | 0 => none
  | fuel + 1 =>
    match cs.dropWhile isJsonWs with
    | [] => none
    | '"' :: rest =>
      match parseJsonStringBody (rest.length + 1) rest with
      | some (body, rest2) => some (.str (String.mk body), rest2)
      | none => none
    | '{' :: rest =>
      match rest.dropWhile isJsonWs with
      | '}' :: rest2 => some (.obj [], rest2)
      | _ =>
        match parseJsonMembers fuel rest with
        | some (fs, rest2) =>
          -- JS object semantics: a duplicated key keeps the last value.
          some (.obj (fs.foldl (fun a p => setField a p.1 p.2) []), rest2)
        | none => none
    | '[' :: rest =>
      match rest.dropWhile isJsonWs with
      | ']' :: rest2 => some (.arr [], rest2)
      | _ =>
        match parseJsonElements fuel rest with
        | some (xs, rest2) => some (.arr xs, rest2)
        | none => none
    | 't' :: 'r' :: 'u' :: 'e' :: rest => some (.boolean true, rest)
    | 'f' :: 'a' :: 'l' :: 's' :: 'e' :: rest => some (.boolean false, rest)
    | 'n' :: 'u' :: 'l' :: 'l' :: rest => some (.null, rest)
    | other =>
      match parseJsonNumber other with
      | some (lex, rest) => some (.numberLex (String.mk lex), rest)
      | none => none

/-- Parse a non-empty `key : value` member list of a JSON object, up to and
including the closing brace. -/
def parseJsonMembers (fuel : Nat) (cs : List Char) :
    Option (List (String × JsVal) × List Char) :=
  match fuel with
  | 0 => none
  | fuel + 1 =>
    match cs.dropWhile isJsonWs with
    | '"' :: rest =>
      match parseJsonStringBody (rest.length + 1) rest with
      | some (key, rest2) =>
        match rest2.dropWhile isJsonWs with
        | ':' :: rest4 =>
          match parseJsonValue fuel rest4 with
          | some (v, rest5) =>
            match rest5.dropWhile isJsonWs with
            | ',' :: rest7 =>
              match parseJsonMembers fuel rest7 with
              | some (fs, rest8) => some ((String.mk key, v) :: fs, rest8)
              | none => none
            | '}' :: rest7 => some ([(String.mk key, v)], rest7)
            | _ => none
          | none => none
        | _ => none
      | none => none
    | _ => none

/-- Parse a non-empty element list of a JSON array, up to and including the
closing bracket. -/
def parseJsonElements (fuel : Nat) (cs : List Char) :
    Option (List JsVal × List Char) :=
  match fuel with
  | 0 => none
  | fuel + 1 =>
    match parseJsonValue fuel cs with
    | some (v, rest) =>
      match rest.dropWhile isJsonWs with
      | ',' :: rest2 =>
        match parseJsonElements fuel rest2 with
        | some (xs, rest3) => some (v :: xs, rest3)
        | none => none
      | ']' :: rest2 => some ([v], rest2)
      | _ => none
    | none => none

end

/-- `JSON.parse`: the whole string must be a single JSON value surrounded
only by JSON whitespace. -/
def jsonParse (s : String) : Option JsVal :=
  match parseJsonValue (2 * s.data.length + 2) s.data with
  | some (v, rest) => if (rest.dropWhile isJsonWs).isEmpty then some v else none
  | none => none

/-! ### parseActionToObject (ChatSteps.tsx, lines 32-82)

The three string formats are recognised exactly as the source regexes do:
  * format 1: `actionStr.match(/\{[\s\S]*?"action"[\s\S]*?\}/i)` followed by
    `JSON.parse` of the matched fragment — the lazy quantifiers select, from
    the leftmost `{` that admits a full match, the first `"action"` literal
    after it and then the first `}` after that;
  * format 2: `actionStr.match(/^(\w+)\((.*)\)$/s)` with the parameter list
    scanned by the global regex `/(\w+)=("([^"]*)"|'([^']*)'|(\d+)|(\w+))/g`
    and the value taken from `match[3] || match[4] || (match[5] ?
    parseInt(match[5]) : match[6])` (so an empty quoted value yields
    `undefined`);
  * format 3: `actionStr.match(/^\[?(\w+)\]?$/i)` — the two brackets are
    optional independently of each other. -/

/-- The literal `"action"` searched for (case-insensitively) by the format-1
regex. -/
def actionLit : List Char := "\"action\"".data

/-- Case-insensitive prefix test, as the `/i` flag treats ASCII letters. -/
def ciStartsWith : List Char → List Char → Bool
  | [], _ => true
  | _ :: _, [] => false
  | p :: ps, c :: cs => p.toLower == c.toLower && ciStartsWith ps cs

/-- Number of characters up to and including the first case-insensitive
occurrence of `"action"`. -/
def findActionEnd : List Char → Option Nat
  | [] => none
  | c :: cs =>
    if ciStartsWith actionLit (c :: cs) then some actionLit.length
    else (findActionEnd cs).map (· + 1)

/-- Number of characters up to and including the first occurrence of
`target`. -/
def findCharEnd (target : Char) : List Char → Option Nat
  | [] => none
  | c :: cs => if c == target then some 1 else (findCharEnd target cs).map (· + 1)

/-- Attempt the format-1 regex match starting at the head of `cs`; the lazy
quantifiers take the first `"action"` after the `{` and the first `}` after
that. -/
def jsonFragmentAt (cs : List Char) : Option (List Char) :=
  match cs with
  | c :: rest =>
    if c == '{' then
      match findActionEnd rest with
      | some n =>
        match findCharEnd '}' (rest.drop n) with
        | some m => some ('{' :: rest.take (n + m))
        | none => none
      | none => none
    else none
  | [] => none

/-- The leftmost format-1 regex match of the whole string, if any. -/
def jsonFragment : List Char → Option (List Char)
  | [] => none
  | c :: cs =>
    match jsonFragmentAt (c :: cs) with
    | some f => some f
    | none => jsonFragment cs

/-- Format 1 of `parseActionToObject`: the matched fragment must also be
valid JSON (otherwise the code falls through to the next format). -/
def jsonBranch (cs : List Char) : Option JsVal :=
  match jsonFragment cs with
  | some frag => jsonParse (String.mk frag)
  | none => none

/-- Decimal digit run to a natural number (`parseInt` on a `\d+` match;
exact — precision loss beyond 2^53 is not modelled, and no verified property
evaluates it on more than 15 digits). -/
def digitsToNat (ds : List Char) : Nat :=
  ds.foldl (fun a c => a * 10 + (c.toNat - '0'.toNat)) 0

/-- One attempt of the value alternation
`("([^"]*)"|'([^']*)'|(\d+)|(\w+))` at the head of `cs`, together with the
`match[3] || match[4] || (match[5] ? parseInt(match[5]) : match[6])`
value selection. -/
def matchValueAt (cs : List Char) : Option (JsVal × List Char) :=
  match cs with
  | [] => none
  | c :: rest =>
    if c == '"' then
      let content := rest.takeWhile (fun ch => ch != '"')
      match rest.drop content.length with
      | c2 :: rest2 =>
        if c2 == '"' then
          some (if content.isEmpty then .undef else .str (String.mk content), rest2)
        else none
      | [] => none
    else if c == sqChar then
      let content := rest.takeWhile (fun ch => ch != sqChar)
      match rest.drop content.length with
      | c2 :: rest2 =>
        if c2 == sqChar then
          some (if content.isEmpty then .undef else .str (String.mk content), rest2)
        else none
      | [] => none
    else
      let ds := (c :: rest).takeWhile isDigitChar
      if !ds.isEmpty then
        some (.number (Int.ofNat (digitsToNat ds)), (c :: rest).drop ds.length)
      else
        let ws := (c :: rest).takeWhile isWordChar
        if !ws.isEmpty then some (.str (String.mk ws), (c :: rest).drop ws.length)
        else none

/-- One attempt of the full parameter regex `(\w+)=(...)` at the head of
`cs`: a maximal non-empty `\w+` run, `=`, then a value alternative. -/
def matchPairAt (cs : List Char) : Option ((String × JsVal) × List Char) :=
  let key := cs.takeWhile isWordChar
  if key.isEmpty then none
  else
    match cs.drop key.length with
    | '=' :: rest =>
      match matchValueAt rest with
      | some (v, rest2) => some ((String.mk key, v), rest2)
      | none => none
    | _ => none

/-- The `while ((match = paramRegex.exec(paramsStr)) !== null)` loop: search
for the next match, record it, continue after it. -/
def scanParams : Nat → List Char → List (String × JsVal)
  | 0, _ => []
  | _ + 1, [] => []
  | fuel + 1, c :: cs =>
    match matchPairAt (c :: cs) with
    | some (kv, rest) => kv :: scanParams fuel rest
    | none => scanParams fuel cs

/-- The anchored format-2 regex `^(\w+)\((.*)\)$` (with the `s` flag): a
maximal non-empty word run, `(`, anything, and a final `)`. -/
def funcDecompose (cs : List Char) : Option (List Char × List Char) :=
  let name := cs.takeWhile isWordChar
  if name.isEmpty then none
  else
    match cs.drop name.length with
    | '(' :: rest =>
      match rest.reverse with
      | ')' :: innerRev => some (name, innerRev.reverse)
      | _ => none
    | _ => none

/-- Format 2 of `parseActionToObject`: build `{action: name}` and then
assign each parsed parameter. -/
def funcBranch (cs : List Char) : Option JsVal :=
  match funcDecompose cs with
  | some (name, inner) =>
    let pairs := scanParams (inner.length + 1) inner
    some (.obj (pairs.foldl (fun fs kv => setField fs kv.1 kv.2)
      [("action", .str (String.mk name))]))
  | none => none

/-- Format 3 of `parseActionToObject`: `^\[?(\w+)\]?$` — an optional `[`,
a non-empty word, an optional `]`. -/
def simpleBranch (cs : List Char) : Option JsVal :=
  let cs1 :=
    match cs with
    | '[' :: rest => rest
    | _ => cs
  let w := cs1.takeWhile isWordChar
  if w.isEmpty then none
  else
    match cs1.drop w.length with
    | [] => some (.obj [("action", .str (String.mk w))])
    | [c] =>
      if c == ']' then some (.obj [("action", .str (String.mk w))]) else none
    | _ => none

/-- The string arm of `parseActionToObject`: trim, reject empty, then try
the three formats in order. -/
def parseActionString (s : String) : Option JsVal :=
  let t := jsTrim s
  if t == "" then none
  else
    match jsonBranch t.data with
    | some v => some v
    | none =>
      match funcBranch t.data with
      | some v => some v
      | none => simpleBranch t.data

/-- `parseActionToObject` (ChatSteps.tsx, lines 32-82): falsy inputs give
`null`; objects (including arrays) are returned unchanged; strings go
through the three formats; any other value gives `null`. -/
def parseActionToObject (v : JsVal) : Option JsVal :=
  if !jsTruthy v then none
  else
    match v with
    | .obj fs => some (.obj fs)
    | .arr xs => some (.arr xs)
    | .str s => parseActionString s
    | _ => none

/-! ### parseStepData (ExecutionDetail.tsx, lines 23-69)

The legacy-format regexes `/<think(?:ing)?>([\s\S]*?)<\/think(?:ing)?>/i`,
`/<answer>([\s\S]*?)<\/answer>/i` and the two global replacements are
embedded by dedicated scanners with JavaScript regex semantics: leftmost
match, greedy optional `ing`, lazy content (earliest closing tag). -/

/-- Case-insensitive literal match returning the remainder. -/
def dropCi : List Char → List Char → Option (List Char)
  | [], cs => some cs
  | _ :: _, [] => none
  | p :: ps, c :: cs => if p.toLower == c.toLower then dropCi ps cs else none

/-- Match `<think(?:ing)?>` at the head (greedy `ing` with backtracking). -/
def openThinkAt (cs : List Char) : Option (List Char) :=
  match dropCi "<think".data cs with
  | some rest =>
    match dropCi "ing>".data rest with
    | some r2 => some r2
    | none =>
      match rest with
      | '>' :: r2 => some r2
      | _ => none
  | none => none

/-- Match `</think(?:ing)?>` at the head. -/
def closeThinkAt (cs : List Char) : Option (List Char) :=
  match dropCi "</think".data cs with
  | some rest =>
    match dropCi "ing>".data rest with
    | some r2 => some r2
    | none =>
      match rest with
      | '>' :: r2 => some r2
      | _ => none
  | none => none

/-- Match `<answer>` at the head (case-insensitive). -/
def openAnswerAt (cs : List Char) : Option (List Char) := dropCi "<answer>".data cs

/-- Match `</answer>` at the head (case-insensitive). -/
def closeAnswerAt (cs : List Char) : Option (List Char) := dropCi "</answer>".data cs

/-- Lazy content scan: number of characters before the earliest closing-tag
match, and the remainder after that closing tag. -/
def findTagClose (closeAt : List Char → Option (List Char)) :
    List Char → Option (Nat × List Char)
  | [] => none
  | c :: cs =>
    match closeAt (c :: cs) with
    | some rest => some (0, rest)
    | none => (findTagClose closeAt cs).map (fun p => (p.1 + 1, p.2))

/-- Leftmost full match `open …lazy… close`: the text before the match, the
captured content, and the remainder after the closing tag. -/
def findTagMatch (openAt closeAt : List Char → Option (List Char)) :
    List Char → Option (List Char × List Char × List Char)
  | [] => none
  | c :: cs =>
    match openAt (c :: cs) with
    | some afterOpen =>
      match findTagClose closeAt afterOpen with
      | some (n, rest) => some ([], afterOpen.take n, rest)
      | none => (findTagMatch openAt closeAt cs).map (fun t => (c :: t.1, t.2.1, t.2.2))
    | none => (findTagMatch openAt closeAt cs).map (fun t => (c :: t.1, t.2.1, t.2.2))

/-- The `thinkMatch` of `parseStepData`. -/
def findThinkMatch (cs : List Char) : Option (List Char × List Char × List Char) :=
  findTagMatch openThinkAt closeThinkAt cs

/-- The `answerMatch` of `parseStepData`. -/
def findAnswerMatch (cs : List Char) : Option (List Char × List Char × List Char) :=
  findTagMatch openAnswerAt closeAnswerAt cs

/-- Global replacement of `<think…>…</think…>` pairs by the empty string
(`.replace(/<think(?:ing)?>[\s\S]*?<\/think(?:ing)?>/gi, '')`). -/
def removeThinkPairs : Nat → List Char → List Char
  | 0, cs => cs
  | fuel + 1, cs =>
    match findThinkMatch cs with
    | some (pre, _, rest) => pre ++ removeThinkPairs fuel rest
    | none => cs

/-- Leftmost match of the standalone-tag regex `/<\/?answer>/i`. -/
def findAnswerTag : List Char → Option (List Char × List Char)
  | [] => none
  | c :: cs =>
    match dropCi "<answer>".data (c :: cs) with
    | some rest => some ([], rest)
    | none =>
      match dropCi "</answer>".data (c :: cs) with
      | some rest => some ([], rest)
      | none => (findAnswerTag cs).map (fun p => (c :: p.1, p.2))

/-- Global replacement of `<answer>` / `</answer>` tags by the empty string
(`.replace(/<\/?answer>/gi, '')`). -/
def removeAnswerTags : Nat → List Char → List Char
  | 0, cs => cs
  | fuel + 1, cs =>
    match findAnswerTag cs with
    | some (pre, rest) => pre ++ removeAnswerTags fuel rest
    | none => cs

/-- `description.replace(think pairs, '').replace(answer tags, '').trim()`,
used both by the legacy branch of `parseStepData` and by the `cleanDesc`
computation of `convertStepsToChatItems`. -/
def cleanDescription (d : String) : String :=
  jsTrim (String.mk (removeAnswerTags (d.data.length + 1) (removeThinkPairs (d.data.length + 1) d.data)))

/-- The `answer` text of the legacy branch: the `<answer>` capture trimmed,
or the stripped description. -/
def answerText (d : String) : String :=
  match findAnswerMatch d.data with
  | some t => jsTrim (String.mk t.2.1)
  | none => cleanDescription d

/-- The `thinking` of the legacy branch: the `<think…>` capture trimmed. -/
def legacyThinking (d : String) : Option String :=
  (findThinkMatch d.data).map (fun t => jsTrim (String.mk t.2.1))

/-- `ExecutionStep` (src/frontend/src/types/index.ts): `action` is
`string | Record | null`, modelled directly as a `JsVal`.  The `timestamp`
string is only ever fed to `new Date(...)` for display and is kept
uninterpreted; `screenshot` is never read by the embedded code. -/
structure ExecutionStep where
  step : Nat
  action : JsVal
  thinking : Option String
  description : Option String
  screenshot : Option String
  timestamp : String

/-- Truthiness of a `string | null` field. -/
def jsTruthyOptStr : Option String → Bool
  | some s => s != ""
  | none => false

/-- `parseStepData` (ExecutionDetail.tsx, lines 23-69): new-format fields
first, legacy `description` parsing only when both are absent. -/
def parseStepData (st : ExecutionStep) : Option String × Option JsVal :=
  let thinking0 : Option String :=
    match st.thinking with
    | some s => if s != "" then some s else none
    | none => none
  let action0 : Option JsVal :=
    if jsTruthy st.action then parseActionToObject st.action else none
  if thinking0.isSome || action0.isSome then (thinking0, action0)
  else
    let description := st.description.getD ""
    if description == "" then (none, none)
    else (legacyThinking description, parseActionToObject (.str (answerText description)))

/-- The `type` discriminator of a chat item. -/
inductive ChatType where
  | user
  | thinking
  | action
  | result
  | error
  | takeover
  | sensitive
deriving DecidableEq, Repr

/-- `StepInfo` (ChatSteps.tsx): `action` is `Record | string | null`,
modelled as a `JsVal`. -/
structure StepInfoM where
  step : Nat
  thinking : String
  action : JsVal
  finished : Bool
  success : Bool
  message : Option String

/-- `ChatItem` (ChatSteps.tsx).  `timestamp` (wall clock) is not modelled;
`id` is kept only where the source derives it from the `id++` counter of
`convertStepsToChatItems` and is `0` for the `Date.now()`-based ids of the
Debug page. -/
structure ChatItemM where
  id : Nat
  type : ChatType
  content : String
  actionData : Option JsVal := none
  stepInfo : Option StepInfoM := none

/-- The chat items `convertStepsToChatItems` pushes for one step, with ids
starting at `i` (ExecutionDetail.tsx, lines 76-137). -/
def stepItems (i : Nat) (st : ExecutionStep) : List ChatItemM :=
  let td := parseStepData st
  let thinking := td.1
  let action := td.2
  let thinkingTruthy := jsTruthyOptStr thinking
  let thinkingItems : List ChatItemM :=
    if thinkingTruthy then
      [{ id := i, type := .thinking, content := thinking.getD "",
         stepInfo := some { step := st.step, thinking := thinking.getD "",
                            action := action.getD JsVal.null, finished := false,
                            success := true, message := none } }]
    else []
  match action with
  | some a =>
    thinkingItems ++
      [{ id := i + thinkingItems.length, type := .action, content := "",
         actionData := some a,
         stepInfo := some { step := st.step, thinking := thinking.getD "",
                            action := a, finished := false, success := true,
                            message := none } }]
  | none =>
    if !thinkingTruthy && jsTruthyOptStr st.description then
      let cleanDesc := cleanDescription (st.description.getD "")
      if cleanDesc != "" then
        thinkingItems ++
          [{ id := i + thinkingItems.length, type := .thinking, content := cleanDesc,
             stepInfo := some { step := st.step, thinking := cleanDesc,
                                action := JsVal.null, finished := false,
                                success := true, message := none } }]
      else thinkingItems
    else thinkingItems

/-- The loop of `convertStepsToChatItems` with the running `id` counter. -/
def convertAux : Nat → List ExecutionStep → List ChatItemM
  | _, [] => []
  | i, st :: rest =>
    let its := stepItems i st
    its ++ convertAux (i + its.length) rest

/-- `convertStepsToChatItems` (ExecutionDetail.tsx, lines 72-141). -/
def convertStepsToChatItems (steps : List ExecutionStep) : List ChatItemM :=
  convertAux 1 steps

/-! ### The token/step stream consumers

ExecutionDetail's SSE listeners (lines 186-232) and Debug's `executeStream`
loop (lines 60-254) process the same `token` update: both compare the
incoming `step` against the tracked current step, reset both incremental
buffers on a change, and then append the content to the buffer selected by
`phase`. -/

/-- The phase of a `token` event (`'thinking' | 'action'`). -/
inductive Phase where
  | thinking
  | action
deriving DecidableEq, Repr

/-- A `token` stream event. -/
structure TokenEvent where
  step : Nat
  phase : Phase
  content : String

/-- The in-flight token state of a stream consumer: the tracked current step
(`currentStep` closure variable / `currentStreamStepRef`) and the two
incremental buffers. -/
structure TokenState where
  currentStep : Nat
  thinking : String
  action : String
deriving DecidableEq, Repr

/-- The `token` listener shared by ExecutionDetail.tsx (lines 190-205) and
Debug.tsx (lines 107-121): reset both buffers when the step changes, then
append the content to the buffer of the event's phase. -/
def applyToken (st : TokenState) (e : TokenEvent) : TokenState :=
  let st1 :=
    if e.step != st.currentStep then
      { currentStep := e.step, thinking := "", action := "" }
    else st
  match e.phase with
  | .thinking => { st1 with thinking := st1.thinking ++ e.content }
  | .action => { st1 with action := st1.action ++ e.content }

/-- The `setStreamSteps` updater of ExecutionDetail's `step` listener
(lines 210-214): skip the event if a step with the same index is already
stored, otherwise append. -/
def addStep (prev : List ExecutionStep) (e : ExecutionStep) : List ExecutionStep :=
  if prev.any (fun s => s.step == e.step) then prev else prev ++ [e]

/-- The ExecutionDetail consumer state (component state plus the
`currentStep` closure variable, which always mirrors `currentStreamStep`). -/
structure EDState where
  streamSteps : List ExecutionStep
  isStreaming : Bool
  streamingThinking : String
  streamingAction : String
  currentStreamStep : Nat

/-- ExecutionDetail `token` listener. -/
def edApplyToken (st : EDState) (e : TokenEvent) : EDState :=
  let ts := applyToken ⟨st.currentStreamStep, st.streamingThinking, st.streamingAction⟩ e
  { st with currentStreamStep := ts.currentStep, streamingThinking := ts.thinking,
            streamingAction := ts.action }

/-- ExecutionDetail `step` listener (lines 208-218): dedup-append the
finalized step and clear both streaming buffers. -/
def edApplyStep (st : EDState) (e : ExecutionStep) : EDState :=
  { st with streamSteps := addStep st.streamSteps e,
            streamingThinking := "", streamingAction := "" }

/-- ExecutionDetail `done` listener (lines 220-227); the refetch of the
finished execution is an external query, not modelled. -/
def edApplyDone (st : EDState) : EDState :=
  { st with streamingThinking := "", streamingAction := "", isStreaming := false }

/-- ExecutionDetail `error` listener (lines 229-232). -/
def edApplyError (st : EDState) : EDState :=
  { st with isStreaming := false }

/-! ### The Debug page `executeStream` loop (Debug.tsx, lines 60-254) -/

/-- The pending sensitive-action dialog data. -/
structure SensitiveInfo where
  message : String
  step : Nat
  action : String

/-- The SSE events handled by `executeStream`, after JSON decoding (lines
that fail to decode are skipped by the `catch` and need not be modelled). -/
inductive DebugEvent where
  | token (step : Nat) (phase : Phase) (content : String)
  | start
  | stepEv (info : StepInfoM) (takeover : Bool) (sensitiveFlag : Bool)
  | sensitiveEv (message : String) (step : Nat) (action : String)
  | takeoverEv (message : String)
  | doneEv (success : Bool) (message : Option String) (paused : Bool)
      (pauseReason : Option String)
  | errorEv (message : String)

/-- The Debug page component state touched by `executeStream`. -/
structure DebugState where
  chatItems : List ChatItemM
  isExecuting : Bool
  pendingCommand : Option String
  sensitiveAction : Option SensitiveInfo
  streamingThinking : String
  streamingAction : String
  currentStreamStep : Nat

/-- Debug `token` handling (lines 107-121). -/
def debugApplyToken (st : DebugState) (step : Nat) (phase : Phase) (content : String) :
    DebugState :=
  let ts := applyToken ⟨st.currentStreamStep, st.streamingThinking, st.streamingAction⟩
    ⟨step, phase, content⟩
  { st with currentStreamStep := ts.currentStep, streamingThinking := ts.thinking,
            streamingAction := ts.action }

/-- Debug `step` handling (lines 125-172): clear the streaming buffers, then
push the finished thinking, the parsed action card (unless the step is a
takeover/sensitive step), and — for a finished step with a message — the
result item (pushed by the source via `setTimeout(..., 100)`; the delay is
not modelled). -/
def debugApplyStep (st : DebugState) (info : StepInfoM) (isTakeover isSensitive : Bool) :
    DebugState :=
  let items1 : List ChatItemM :=
    if info.thinking != "" then
      [{ id := 0, type := .thinking, content := info.thinking, stepInfo := some info }]
    else []
  let items2 : List ChatItemM :=
    if jsTruthy info.action && !isTakeover && !isSensitive then
      match parseActionToObject info.action with
      | some a =>
        [{ id := 0, type := .action, content := "", actionData := some a,
           stepInfo := some info }]
      | none => []
    else []
  let items3 : List ChatItemM :=
    if info.finished && jsTruthyOptStr info.message then
      [{ id := 0, type := .result, content := info.message.getD "" }]
    else []
  { st with streamingThinking := "", streamingAction := "",
            chatItems := st.chatItems ++ items1 ++ items2 ++ items3 }

/-- Debug `sensitive` handling (lines 173-186). -/
def debugApplySensitive (st : DebugState) (message : String) (step : Nat)
    (action : String) : DebugState :=
  { st with sensitiveAction := some ⟨message, step, action⟩,
            chatItems := st.chatItems ++ [{ id := 0, type := .sensitive, content := message }] }

/-- Debug `takeover` handling (lines 187-194). -/
def debugApplyTakeover (st : DebugState) (message : String) : DebugState :=
  { st with chatItems := st.chatItems ++ [{ id := 0, type := .takeover, content := message }] }

/-- Debug `done` handling (lines 195-219): clear the streaming state; if
`paused`, stop executing and — exactly for `pauseReason === 'sensitive'` —
save the command being executed as the pending command; otherwise push a
result item for an unsuccessful message and stop executing. -/
def debugApplyDone (command : String) (st : DebugState) (success : Bool)
    (message : Option String) (paused : Bool) (pauseReason : Option String) :
    DebugState :=
  let st1 := { st with streamingThinking := "", streamingAction := "",
                       currentStreamStep := 0 }
  if paused then
    { st1 with isExecuting := false,
               pendingCommand :=
                 if pauseReason == some "sensitive" then some command
                 else st1.pendingCommand }
  else
    let items : List ChatItemM :=
      if jsTruthyOptStr message && !success then
        [{ id := 0, type := .result, content := message.getD "" }]
      else []
    { st1 with chatItems := st1.chatItems ++ items, isExecuting := false }

/-- Debug `error` handling (lines 220-234). -/
def debugApplyError (st : DebugState) (message : String) : DebugState :=
  { st with streamingThinking := "", streamingAction := "", currentStreamStep := 0,
            chatItems := st.chatItems ++ [{ id := 0, type := .error, content := message }],
            isExecuting := false }

/-- The `executeStream` read loop at event granularity: `done` and `error`
both `return` (the remaining events of the list are never read); when the
stream ends without either, `setIsExecuting(false)` runs after the loop. -/
def runEvents (command : String) : DebugState → List DebugEvent → DebugState
  | st, [] => { st with isExecuting := false }
  | st, e :: rest =>
    match e with
    | .doneEv success message paused pauseReason =>
      debugApplyDone command st success message paused pauseReason
    | .errorEv m => debugApplyError st m
    | .token step phase content => runEvents command (debugApplyToken st step phase content) rest
    | .start => runEvents command st rest
    | .stepEv info tk sv => runEvents command (debugApplyStep st info tk sv) rest
    | .sensitiveEv m s a => runEvents command (debugApplySensitive st m s a) rest
    | .takeoverEv m => runEvents command (debugApplyTakeover st m) rest

/-- `handleConfirmSensitive` (Debug.tsx, lines 282-297); the second
component is the command passed to `executeStream`, `none` when no new
stream is started.  The `if (pendingCommand)` guard is JS truthiness: a
null or empty pending command starts no stream. -/
def handleConfirmSensitive (st : DebugState) : DebugState × Option String :=
  let st1 := { st with sensitiveAction := none,
                       chatItems := st.chatItems ++
                         [{ id := 0, type := .result, content := "已确认操作，继续执行..." }] }
  if jsTruthyOptStr st.pendingCommand then
    ({ st1 with isExecuting := true, pendingCommand := none }, some "继续执行")
  else (st1, none)

/-- `handleCancelSensitive` (Debug.tsx, lines 300-310): discard the pending
command, never invoke `executeStream`. -/
def handleCancelSensitive (st : DebugState) : DebugState × Option String :=
  ({ st with sensitiveAction := none, pendingCommand := none,
             chatItems := st.chatItems ++
               [{ id := 0, type := .error, content := "已取消操作" }] }, none)

/-! ### Live-screen fallback (claim C7) -/

/-- Events reaching the fallback watchdog of the `ScrcpyPlayer` component
(src/frontend/src/components/Layout.tsx, the document after the separator,
lines 97-382): the socket `connect` handler arming the fallback timer, an
incoming `video-data` packet handled by `handleVideoData`, and an armed
fallback timer elapsing. -/
inductive RelayEvent where
  | socketConnected
  | videoData
  | timerFired
deriving DecidableEq

/-- The watchdog state of `ScrcpyPlayer`: `hasReceivedData` is
`hasReceivedDataRef.current`, `timerArmed` is whether the `setTimeout` of
`fallbackTimerRef` is still pending, and `fallbackSignaled` records that
`onFallback?.()` has been invoked. -/
structure WatchdogState where
  hasReceivedData : Bool
  timerArmed : Bool
  fallbackSignaled : Bool

/-- `connect()` (ScrcpyPlayer, line 205): `hasReceivedDataRef.current =
false`; no timer armed yet, no fallback signaled. -/
def watchdogInit : WatchdogState := ⟨false, false, false⟩

/-- The `ScrcpyPlayer` watchdog transitions: the socket `connect` handler
arms the fallback timer (`fallbackTimerRef.current = window.setTimeout(...)`,
lines 217-224); `handleVideoData` sets `hasReceivedDataRef.current = true`
and clears the timer (lines 258-262); when an armed timer elapses its
callback signals `onFallback?.()` unless video data was received — a
cleared timer never fires, which the `timerArmed` guard models. -/
def watchdogStep : WatchdogState → RelayEvent → WatchdogState
  | st, .socketConnected => { st with timerArmed := true }
  | st, .videoData => { st with hasReceivedData := true, timerArmed := false }
  | st, .timerFired =>
    if st.timerArmed then
      if st.hasReceivedData then { st with timerArmed := false }
      else { st with timerArmed := false, fallbackSignaled := true }
    else st

/-- What the live-screen pane of a running execution renders. -/
inductive LiveView where
  | scrcpyPlayer
  | screenshotViewer
  | waitingDevice
deriving DecidableEq

/-- The `onFallback` prop passed by both callers:
`() => setUseFallback(true)` (ExecutionDetail.tsx line 465, Debug.tsx line
434); no code path ever resets the flag while mounted. -/
def onFallbackHandler (_useFallback : Bool) : Bool := true

/-- The live-screen rendering of a running execution (ExecutionDetail.tsx,
lines 452-468): with a device, `useFallback` selects the polled
`ScreenshotViewer` over the `ScrcpyPlayer`. -/
def renderLiveScreen (stableDeviceId : Option String) (useFallback : Bool) : LiveView :=
  match stableDeviceId with
  | some _ => if useFallback then .screenshotViewer else .scrcpyPlayer
  | none => .waitingDevice

/-- `devicesApi.getScreenshotUrl(deviceId)` with the `?t=Date.now()` cache
buster appended by `ScreenshotViewer.updateImage`. -/
def screenshotUrl (deviceId : String) (now : Nat) : String :=
  "/api/devices/" ++ deviceId ++ "/screenshot?t=" ++ toString now

/-- `ScreenshotViewer` component state (src/unnamed/part_003):
`timerScheduled` models the pending `setTimeout` of the `scheduleNext`
chain. -/
structure ScreenshotState where
  imageUrl : String
  error : Option String
  timerScheduled : Bool

/-- Mount effect of `ScreenshotViewer`: fetch the first screenshot
immediately and schedule the next refresh. -/
def screenshotInit (deviceId : String) (now : Nat) : ScreenshotState :=
  { imageUrl := screenshotUrl deviceId now, error := none, timerScheduled := true }

/-- Events reaching a mounted `ScreenshotViewer`. -/
inductive ScreenshotEvent where
  | tick (now : Nat)
  | imgLoad
  | imgError

/-- `ScreenshotViewer` transitions: a timer tick refreshes the image URL and
reschedules itself; `onLoad` clears the error; `onError` deliberately does
nothing ("不设置错误，继续尝试下一张") so polling continues. -/
def screenshotStep (deviceId : String) : ScreenshotState → ScreenshotEvent → ScreenshotState
  | st, .tick now => { st with imageUrl := screenshotUrl deviceId now, timerScheduled := true }
  | st, .imgLoad => { st with error := none }
  | st, .imgError => st

/-- What `ScreenshotViewer` renders. -/
inductive ScreenshotView where
  | errorView
  | loadingView
  | imageView (url : String)
deriving DecidableEq

/-- The render function of `ScreenshotViewer` (lines 66-92). -/
def renderScreenshot (st : ScreenshotState) : ScreenshotView :=
  match st.error with
  | some _ => .errorView
  | none => if st.imageUrl == "" then .loadingView else .imageView st.imageUrl

/-! ### Specification-side predicates for the claims -/

/-- A non-empty ASCII `\w+` string. -/
def isWordStr (s : String) : Bool := !s.data.isEmpty && s.data.all isWordChar

/-- Claim C8's format 1, as worded: the (trimmed) string is a JSON object
containing an `"action"` key. -/
def claimJsonActionObject (s : String) : Bool :=
  match jsonParse (jsTrim s) with
  | some (.obj fs) => fs.any (fun p => p.1 == "action")
  | _ => false

/-- Claim C8's format 2, as worded: a function-call form `Name(args)`. -/
def claimFuncForm (s : String) : Bool := (funcDecompose (jsTrim s).data).isSome

/-- Claim C8's format 3, as worded: a bare action name, optionally enclosed
in square brackets. -/
def claimSimpleForm (s : String) : Bool :=
  let t := jsTrim s
  isWordStr t ||
    (match t.data with
     | '[' :: rest =>
       match rest.reverse with
       | ']' :: midRev => isWordStr (String.mk midRev.reverse)
       | _ => false
     | _ => false)

/-- The null-characterisation of claim C8, exactly as stated: null,
undefined, a non-string non-object, a whitespace-only string, or a string
matching none of the three supported formats. -/
def claimNullCond (v : JsVal) : Bool :=
  match v with
  | .null => true
  | .undef => true
  | .boolean _ => true
  | .number _ => true
  | .numberLex _ => true
  | .obj _ => false
  | .arr _ => false
  | .str s =>
    jsTrim s == "" ||
      (!claimJsonActionObject s && !claimFuncForm s && !claimSimpleForm s)

/-- The amended null-characterisation: a falsy or non-string non-object
input, or a string that is whitespace-only or on which all three parsing
branches fail (the JSON branch requires its lazily-matched fragment to be
valid JSON; the simple branch accepts its two brackets independently). -/
def amendedNullCond (v : JsVal) : Bool :=
  match v with
  | .null => true
  | .undef => true
  | .boolean _ => true
  | .number _ => true
  | .numberLex _ => true
  | .obj _ => false
  | .arr _ => false
  | .str s =>
    let t := jsTrim s
    t == "" ||
      ((jsonBranch t.data).isNone && (funcBranch t.data).isNone &&
        (simpleBranch t.data).isNone)

/-! ### The function-call grammar of claim C9 -/

/-- A parameter value of the function-call form: a double-quoted string, a
single-quoted string, a digit sequence, or a bare word. -/
inductive ParamVal where
  | dq (s : String)
  | sq (s : String)
  | digits (s : String)
  | bare (s : String)

/-- Render one parameter value as written in the call string. -/
def renderVal : ParamVal → String
  | .dq s => "\"" ++ s ++ "\""
  | .sq s => String.singleton sqChar ++ s ++ String.singleton sqChar
  | .digits s => s
  | .bare s => s

/-- Render a `, `-separated `key=value` list. -/
def renderParams : List (String × ParamVal) → String
  | [] => ""
  | (k, v) :: rest =>
    k ++ "=" ++ renderVal v ++ (if rest.isEmpty then "" else ", " ++ renderParams rest)

/-- Render the whole function-call string `Name(k1=v1, k2=v2, …)`. -/
def renderCall (name : String) (ps : List (String × ParamVal)) : String :=
  name ++ "(" ++ renderParams ps ++ ")"

/-- Well-formedness of a parameter value: non-empty; quoted strings must not
contain their own delimiter (the regex reads up to the first one) nor `{`
(which could wake the JSON branch); digit sequences are capped at 15 digits
(where `parseInt` is exact); bare words must not start with a digit (the
`(\d+)` alternative would split them). -/
def goodVal : ParamVal → Bool
  | .dq s => !s.data.isEmpty && s.data.all (fun c => c != '"' && c != '{')
  | .sq s => !s.data.isEmpty && s.data.all (fun c => c != sqChar && c != '{')
  | .digits s => !s.data.isEmpty && s.data.all isDigitChar && s.data.length ≤ 15
  | .bare s =>
    !s.data.isEmpty && s.data.all isWordChar &&
      (match s.data with
       | c :: _ => !c.isDigit
       | [] => true)

/-- Well-formedness of the parameter list (key names are words distinct from
the `action` key the code itself writes). -/
def goodParams (ps : List (String × ParamVal)) : Bool :=
  ps.all (fun kv => isWordStr kv.1 && kv.1 != "action" && goodVal kv.2)

/-- The value each parameter denotes in the resulting record. -/
def semVal : ParamVal → JsVal
  | .dq s => .str s
  | .sq s => .str s
  | .digits s => .number (Int.ofNat (digitsToNat s.data))
  | .bare s => .str s

/-! ### The producer invariant of claim C1 -/

/-- The step indices of a stored step list. -/
def stepIndices (l : List ExecutionStep) : List Nat := l.map (fun s => s.step)

/-- A legal producer trace, as guaranteed by the spec (§3, §4.3): tracking
the largest index emitted so far, every `step` event either replays an
already-emitted index (a late subscriber receives the persisted log first)
or advances it by exactly one; indices start at 1. -/
def producerOkB : Nat → List ExecutionStep → Bool
  | _, [] => true
  | m, e :: es =>
    ((1 ≤ e.step && e.step ≤ m) || e.step == m + 1) && producerOkB (max m e.step) es

/-- The largest step index of a trace. -/
def traceMax (evs : List ExecutionStep) : Nat :=
  evs.foldl (fun m e => max m e.step) 0

/-! ## Theorems -/

theorem emptyAppend (s : String) : "" ++ s = s := by
  apply String.ext
  simp [String.data_append]

theorem addStep_of_mem {prev : List ExecutionStep} {e : ExecutionStep}
    (h : ∃ s ∈ prev, s.step = e.step) : addStep prev e = prev := by
  unfold addStep
  have hany : prev.any (fun s => s.step == e.step) = true := by
    rw [List.any_eq_true]
    obtain ⟨s, hs, hss⟩ := h
    exact ⟨s, hs, by simpa using hss⟩
  simp [hany]

theorem addStep_range {prev : List ExecutionStep} {e : ExecutionStep} {m : Nat}
    (h : stepIndices prev = List.range' 1 m)
    (he : (1 ≤ e.step ∧ e.step ≤ m) ∨ e.step = m + 1) :
    stepIndices (addStep prev e) = List.range' 1 (max m e.step) := by
  rcases he with ⟨h1, h2⟩ | hnew
  · have hmem : e.step ∈ stepIndices prev := by
      rw [h, List.mem_range'_1]
      omega
    obtain ⟨s, hs, hss⟩ := List.mem_map.mp hmem
    rw [addStep_of_mem ⟨s, hs, hss⟩, h]
    congr 1
    omega
  · have hnot : ¬ prev.any (fun s => s.step == e.step) = true := by
      rw [List.any_eq_true]
      rintro ⟨s, hs, hseq⟩
      have hmem : s.step ∈ stepIndices prev := List.mem_map_of_mem _ hs
      rw [h, List.mem_range'_1] at hmem
      have : s.step = e.step := by simpa using hseq
      omega
    unfold addStep
    rw [if_neg hnot]
    unfold stepIndices
    rw [List.map_append]
    have hm : max m e.step = m + 1 := by omega
    rw [hm, List.range'_concat]
    unfold stepIndices at h
    rw [h]
    simp [hnew]
    omega

theorem foldl_addStep_ok :
    ∀ (evs : List ExecutionStep) (acc : List ExecutionStep) (m : Nat),
      stepIndices acc = List.range' 1 m → producerOkB m evs = true →
      stepIndices (evs.foldl addStep acc) =
        List.range' 1 (evs.foldl (fun a e => max a e.step) m) := by
  intro evs
  induction evs with
  | nil => intro acc m h _; simpa using h
  | cons e es ih =>
    intro acc m h hok
    simp only [producerOkB, Bool.and_eq_true, Bool.or_eq_true, decide_eq_true_eq,
      beq_iff_eq] at hok
    obtain ⟨h1, h2⟩ := hok
    simp only [List.foldl_cons]
    exact ih (addStep acc e) (max m e.step) (addStep_range h h1) h2

/-- C1: within one Execution, the step indices accumulated by the
ExecutionDetail `step` listener are exactly `1, 2, …, n` — strictly
increasing by exactly one and never repeating — for every legal producer
trace; in particular an incoming `step` event whose index equals a stored
step's index leaves the stored list unchanged. -/
theorem C1_step_indices_strictly_increasing :
    (∀ (prev : List ExecutionStep) (e : ExecutionStep),
        (∃ s ∈ prev, s.step = e.step) → addStep prev e = prev) ∧
    ∀ evs : List ExecutionStep, producerOkB 0 evs = true →
      stepIndices (evs.foldl addStep []) = List.range' 1 (traceMax evs) := by
  constructor
  · intro prev e h
    exact addStep_of_mem h
  · intro evs h
    have hres := foldl_addStep_ok evs [] 0 rfl h
    simpa [traceMax] using hres

/-- Witness for C1 at a two-step trace with a replayed index. -/
theorem C1_witness :
    addStep [⟨1, JsVal.null, none, none, none, "t1"⟩]
        ⟨1, JsVal.null, none, some "replay", none, "t2"⟩ =
      [⟨1, JsVal.null, none, none, none, "t1"⟩] ∧
    stepIndices
        (([⟨1, JsVal.null, none, none, none, "t1"⟩,
           ⟨2, JsVal.null, none, none, none, "t3"⟩] : List ExecutionStep).foldl addStep []) =
      List.range' 1 (traceMax [⟨1, JsVal.null, none, none, none, "t1"⟩,
        ⟨2, JsVal.null, none, none, none, "t3"⟩]) := by
  constructor
  · exact C1_step_indices_strictly_increasing.1 _ _
      ⟨⟨1, JsVal.null, none, none, none, "t1"⟩, List.mem_singleton.mpr rfl, rfl⟩
  · exact C1_step_indices_strictly_increasing.2 _ (by decide)

/-- C2: a `token` event whose step differs from the current streaming step
resets both incremental buffers before its content is appended; a `token`
event for the current step appends its content to the buffer of its phase
and leaves the other buffer unchanged. -/
theorem C2_token_buffering :
    ∀ (st : TokenState) (e : TokenEvent),
      (e.step ≠ st.currentStep →
        applyToken st e =
          { currentStep := e.step,
            thinking := if e.phase = Phase.thinking then e.content else "",
            action := if e.phase = Phase.action then e.content else "" }) ∧
      (e.step = st.currentStep →
        applyToken st e =
          { currentStep := st.currentStep,
            thinking := if e.phase = Phase.thinking then st.thinking ++ e.content
              else st.thinking,
            action := if e.phase = Phase.action then st.action ++ e.content
              else st.action }) := by
  intro st e
  constructor
  · intro h
    have hb : (e.step != st.currentStep) = true := by simpa using h
    cases hp : e.phase <;> simp [applyToken, hb, hp, emptyAppend]
  · intro h
    have hb : (e.step != st.currentStep) = false := by simpa using h
    cases hp : e.phase <;> simp [applyToken, hb, hp]

/-- Witness for C2: a step change flushes, a same-step token appends. -/
theorem C2_witness :
    applyToken ⟨1, "a", "b"⟩ ⟨2, Phase.thinking, "x"⟩ = ⟨2, "x", ""⟩ ∧
    applyToken ⟨1, "a", "b"⟩ ⟨1, Phase.action, "y"⟩ = ⟨1, "a", "by"⟩ := by
  constructor
  · exact (C2_token_buffering ⟨1, "a", "b"⟩ ⟨2, Phase.thinking, "x"⟩).1 (by decide)
  · exact (C2_token_buffering ⟨1, "a", "b"⟩ ⟨1, Phase.action, "y"⟩).2 rfl

/-- C3: after a consumer processes a `step` event, both in-flight token
buffers are empty — in the ExecutionDetail listener and in the Debug
`executeStream` loop alike. -/
theorem C3_step_event_clears_buffers :
    (∀ (st : EDState) (e : ExecutionStep),
        (edApplyStep st e).streamingThinking = "" ∧
          (edApplyStep st e).streamingAction = "") ∧
    ∀ (st : DebugState) (info : StepInfoM) (tk sv : Bool),
      (debugApplyStep st info tk sv).streamingThinking = "" ∧
        (debugApplyStep st info tk sv).streamingAction = "" := by
  exact ⟨fun st e => ⟨rfl, rfl⟩, fun st info tk sv => ⟨rfl, rfl⟩⟩

/-- C4: a `done` event with `paused = true` makes the Debug consumer stop
reading the stream (the remaining events are never processed), appends no
terminal result item, leaves the executing state, and retains the original
command as the pending command exactly when `pauseReason` is `'sensitive'`
(otherwise the pending command is untouched). -/
theorem C4_done_paused :
    ∀ (cmd : String) (st : DebugState) (success : Bool) (msg : Option String)
      (reason : Option String) (rest : List DebugEvent),
      runEvents cmd st (DebugEvent.doneEv success msg true reason :: rest) =
        runEvents cmd st [DebugEvent.doneEv success msg true reason] ∧
      (runEvents cmd st (DebugEvent.doneEv success msg true reason :: rest)).chatItems =
        st.chatItems ∧
      (runEvents cmd st (DebugEvent.doneEv success msg true reason :: rest)).isExecuting =
        false ∧
      (reason = some "sensitive" →
        (runEvents cmd st (DebugEvent.doneEv success msg true reason :: rest)).pendingCommand =
          some cmd) ∧
      (reason ≠ some "sensitive" →
        (runEvents cmd st (DebugEvent.doneEv success msg true reason :: rest)).pendingCommand =
          st.pendingCommand) := by
  intro cmd st success msg reason rest
  refine ⟨rfl, ?_, ?_, ?_, ?_⟩
  · simp [runEvents, debugApplyDone]
  · simp [runEvents, debugApplyDone]
  · intro h
    simp [runEvents, debugApplyDone, h]
  · intro h
    have hb : (reason == some "sensitive") = false := by
      simpa using h
    simp [runEvents, debugApplyDone, hb]

/-- Witness for C4 at a concrete paused `done` followed by an unread
event. -/
theorem C4_witness :
    (runEvents "打开微信" ⟨[], true, none, none, "a", "b", 3⟩
        [DebugEvent.doneEv true none true (some "sensitive"),
         DebugEvent.errorEv "boom"]).pendingCommand = some "打开微信" ∧
    (runEvents "打开微信" ⟨[], true, none, none, "a", "b", 3⟩
        [DebugEvent.doneEv true none true (some "sensitive"),
         DebugEvent.errorEv "boom"]).chatItems = [] ∧
    (runEvents "打开微信" ⟨[], true, none, none, "a", "b", 3⟩
        [DebugEvent.doneEv true none true (some "sensitive"),
         DebugEvent.errorEv "boom"]).isExecuting = false := by
  have h := C4_done_paused "打开微信" ⟨[], true, none, none, "a", "b", 3⟩ true none
    (some "sensitive") [DebugEvent.errorEv "boom"]
  exact ⟨h.2.2.2.1 rfl, h.2.1, h.2.2.1⟩

/-- C5: with a pending command (non-empty, as every command sent by
`handleSend` is), confirming the sensitive action starts a new execution
stream whose command is the fixed string `继续执行` — independent of the
original command — returns the client to the executing state and clears the
pending command; cancelling discards the pending command and never starts a
stream. -/
theorem C5_resume_uses_fixed_command :
    (∀ (st : DebugState) (c : String), st.pendingCommand = some c → c ≠ "" →
        (handleConfirmSensitive st).2 = some "继续执行" ∧
        (handleConfirmSensitive st).1.isExecuting = true ∧
        (handleConfirmSensitive st).1.pendingCommand = none) ∧
    ∀ st : DebugState,
      (handleCancelSensitive st).2 = none ∧
        (handleCancelSensitive st).1.pendingCommand = none := by
  constructor
  · intro st c h hne
    have ht : jsTruthyOptStr st.pendingCommand = true := by
      rw [h]
      simpa [jsTruthyOptStr] using hne
    simp [handleConfirmSensitive, ht]
  · intro st
    exact ⟨rfl, rfl⟩

/-- Witness for C5 at a concrete non-empty pending command. -/
theorem C5_witness :
    (handleConfirmSensitive ⟨[], false, some "打开微信", none, "", "", 0⟩).2 =
      some "继续执行" ∧
    (handleCancelSensitive ⟨[], false, some "打开微信", none, "", "", 0⟩).1.pendingCommand =
      none := by
  exact ⟨(C5_resume_uses_fixed_command.1 _ "打开微信" rfl (by decide)).1,
    (C5_resume_uses_fixed_command.2 _).2⟩

theorem parseStepData_null_empty {st : ExecutionStep}
    (ha : parseActionToObject st.action = none)
    (ht : st.thinking = none ∨ st.thinking = some "")
    (hd : st.description = none ∨ st.description = some "") :
    parseStepData st = (none, none) := by
  rcases ht with h | h <;> rcases hd with h2 | h2 <;>
    simp [parseStepData, h, h2, ha]

theorem stepItems_nil {st : ExecutionStep} (i : Nat)
    (ha : parseActionToObject st.action = none)
    (ht : st.thinking = none ∨ st.thinking = some "")
    (hd : st.description = none ∨ st.description = some "") :
    stepItems i st = [] := by
  have hp := parseStepData_null_empty ha ht hd
  rcases hd with h2 | h2 <;> simp [stepItems, hp, h2, jsTruthyOptStr]

theorem convertAux_skip {st : ExecutionStep} (h : ∀ i, stepItems i st = []) :
    ∀ (pre post : List ExecutionStep) (i : Nat),
      convertAux i (pre ++ st :: post) = convertAux i (pre ++ post) := by
  intro pre
  induction pre with
  | nil =>
    intro post i
    simp [convertAux, h i]
  | cons p pre' ih =>
    intro post i
    simp only [List.cons_append, convertAux, List.append_eq]
    rw [ih post]

/-- C6 (counterexample): the claim fails as stated — a step whose `action`
parses to null and whose `thinking` is empty but whose `description` is a
plain non-empty text still produces a chat item. -/
theorem C6_counterexample :
    (⟨1, JsVal.null, none, some "???", none, "t"⟩ : ExecutionStep).thinking = none ∧
    parseActionToObject
        (⟨1, JsVal.null, none, some "???", none, "t"⟩ : ExecutionStep).action = none ∧
    convertStepsToChatItems [⟨1, JsVal.null, none, some "???", none, "t"⟩] ≠ [] := by
  refine ⟨rfl, rfl, ?_⟩
  intro h
  exact absurd (congrArg List.length h) (by decide)

/-- C6 (amended): a step whose `action` parses to null, whose `thinking` is
empty and whose `description` is also empty contributes no chat items:
`convertStepsToChatItems` on any list containing it equals the conversion of
the list without it. -/
theorem C6_amended_no_items :
    ∀ (st : ExecutionStep) (pre post : List ExecutionStep),
      parseActionToObject st.action = none →
      (st.thinking = none ∨ st.thinking = some "") →
      (st.description = none ∨ st.description = some "") →
      convertStepsToChatItems (pre ++ st :: post) =
        convertStepsToChatItems (pre ++ post) := by
  intro st pre post ha ht hd
  unfold convertStepsToChatItems
  exact convertAux_skip (fun i => stepItems_nil i ha ht hd) pre post 1

/-- Witness for C6 amended: a step with an unparseable action string, empty
thinking and empty description yields no items. -/
theorem C6_witness :
    convertStepsToChatItems [⟨2, JsVal.str "garbage!!!", some "", some "", none, "t"⟩] =
      [] := by
  have h := C6_amended_no_items ⟨2, JsVal.str "garbage!!!", some "", some "", none, "t"⟩
    [] [] (by rfl) (Or.inr rfl) (Or.inr rfl)
  simpa [convertStepsToChatItems, convertAux] using h

theorem watchdog_no_data :
    ∀ (evs : List RelayEvent) (st : WatchdogState),
      RelayEvent.videoData ∉ evs → st.hasReceivedData = false →
      (st.timerArmed = true ∨ st.fallbackSignaled = true) →
      (evs.foldl watchdogStep st).hasReceivedData = false ∧
        ((evs.foldl watchdogStep st).timerArmed = true ∨
          (evs.foldl watchdogStep st).fallbackSignaled = true) := by
  intro evs
  induction evs with
  | nil =>
    intro st _ h1 h2
    exact ⟨h1, h2⟩
  | cons e es ih =>
    intro st hmem h1 h2
    have he : e ≠ RelayEvent.videoData := by
      intro hh
      exact hmem (hh ▸ List.mem_cons_self e es)
    have hmem2 : RelayEvent.videoData ∉ es := fun h => hmem (List.mem_cons_of_mem e h)
    simp only [List.foldl_cons]
    cases e with
    | socketConnected =>
      exact ih _ hmem2 (by simpa [watchdogStep] using h1) (by simp [watchdogStep])
    | videoData => exact absurd rfl he
    | timerFired =>
      cases ha : st.timerArmed with
      | true =>
        exact ih _ hmem2 (by simp [watchdogStep, ha, h1]) (by simp [watchdogStep, ha, h1])
      | false =>
        rcases h2 with h2 | h2
        · rw [ha] at h2
          cases h2
        · exact ih _ hmem2 (by simp [watchdogStep, ha, h1]) (by simp [watchdogStep, ha, h2])

/-- C7: if no video data arrives after connecting before the armed fallback
timer fires, the `ScrcpyPlayer` watchdog signals `onFallback`; a signaled
fallback makes the live-screen pane render the polled screenshot viewer; and
the screenshot viewer is a strict degrade path — its error state never
becomes set, its refresh timer survives every event, a tick always re-polls
a fresh screenshot URL, and an error-free state with a URL renders the
image (a failed image load changes nothing, so polling retries). -/
theorem C7_fallback_degrade_path :
    (∀ evs : List RelayEvent, RelayEvent.videoData ∉ evs →
        (watchdogStep
            (evs.foldl watchdogStep (watchdogStep watchdogInit RelayEvent.socketConnected))
            RelayEvent.timerFired).fallbackSignaled = true) ∧
    (∀ d : String, renderLiveScreen (some d) (onFallbackHandler false) =
        LiveView.screenshotViewer) ∧
    (∀ (d : String) (st : ScreenshotState) (e : ScreenshotEvent),
        st.error = none → (screenshotStep d st e).error = none) ∧
    (∀ (d : String) (st : ScreenshotState) (e : ScreenshotEvent),
        st.timerScheduled = true → (screenshotStep d st e).timerScheduled = true) ∧
    (∀ (d : String) (t : Nat) (st : ScreenshotState),
        (screenshotStep d st (ScreenshotEvent.tick t)).imageUrl = screenshotUrl d t) ∧
    ∀ st : ScreenshotState, st.error = none → st.imageUrl ≠ "" →
      renderScreenshot st = ScreenshotView.imageView st.imageUrl := by
  refine ⟨?_, ?_, ?_, ?_, ?_, ?_⟩
  · intro evs hmem
    obtain ⟨hrec, harm⟩ := watchdog_no_data evs
      (watchdogStep watchdogInit RelayEvent.socketConnected) hmem rfl (Or.inl rfl)
    generalize hg : evs.foldl watchdogStep
      (watchdogStep watchdogInit RelayEvent.socketConnected) = st1 at hrec harm ⊢
    cases ha : st1.timerArmed with
    | true => simp [watchdogStep, ha, hrec]
    | false =>
      rcases harm with harm | hsig
      · rw [ha] at harm
        cases harm
      · simp [watchdogStep, ha, hsig]
  · intro d
    rfl
  · intro d st e h
    cases e <;> simp [screenshotStep, h]
  · intro d st e h
    cases e <;> simp [screenshotStep, h]
  · intro d t st
    rfl
  · intro st h1 h2
    simp [renderScreenshot, h1, h2]

/-- Witness for C7 at a dataless connection and a freshly mounted viewer
surviving a failed image load. -/
theorem C7_witness :
    (watchdogStep
        (([] : List RelayEvent).foldl watchdogStep
          (watchdogStep watchdogInit RelayEvent.socketConnected))
        RelayEvent.timerFired).fallbackSignaled = true ∧
    (screenshotStep "emulator-5554" (screenshotInit "emulator-5554" 0)
        ScreenshotEvent.imgError).error = none ∧
    renderScreenshot (screenshotInit "emulator-5554" 0) =
      ScreenshotView.imageView (screenshotUrl "emulator-5554" 0) := by
  refine ⟨?_, ?_, ?_⟩
  · exact C7_fallback_degrade_path.1 [] (by decide)
  · exact C7_fallback_degrade_path.2.2.1 "emulator-5554" _ ScreenshotEvent.imgError rfl
  · exact C7_fallback_degrade_path.2.2.2.2.2 (screenshotInit "emulator-5554" 0) rfl
      (by decide)

/-- C8 (counterexample): the claim's null-characterisation fails as stated —
the string `"[foo"` matches none of the three formats it describes (it is
not valid JSON, not a function call, and not a bare name optionally enclosed
in brackets), yet `parseActionToObject` returns a non-null record for it,
because the simple-name regex `^\[?(\w+)\]?$` accepts a `[` without its
matching `]`. -/
theorem C8_counterexample :
    (parseActionToObject (JsVal.str "[foo")).isSome = true ∧
    claimNullCond (JsVal.str "[foo") = true := by
  exact ⟨rfl, rfl⟩

/-- C8 (amended): `parseActionToObject` is total; every non-null object
(or array) input is returned unchanged; and it returns null exactly when
the input is null, undefined, a non-string non-object, or a string that is
whitespace-only or on which all three parsing branches fail — where the
JSON branch succeeds only when its lazily-matched `{…"action"…}` fragment
is valid JSON, and the simple branch accepts its two square brackets
independently of each other. -/
theorem C8_amended_null_characterisation :
    (∀ v : JsVal, parseActionToObject v = none ↔ amendedNullCond v = true) ∧
    (∀ fs : List (String × JsVal),
        parseActionToObject (JsVal.obj fs) = some (JsVal.obj fs)) ∧
    ∀ xs : List JsVal, parseActionToObject (JsVal.arr xs) = some (JsVal.arr xs) := by
  refine ⟨?_, fun fs => rfl, fun xs => rfl⟩
  intro v
  cases v with
  | undef => simp [parseActionToObject, jsTruthy, amendedNullCond]
  | null => simp [parseActionToObject, jsTruthy, amendedNullCond]
  | boolean b => cases b <;> simp [parseActionToObject, jsTruthy, amendedNullCond]
  | number n =>
    by_cases h : n = 0 <;> simp [parseActionToObject, jsTruthy, amendedNullCond, h]
  | numberLex s => simp [parseActionToObject, jsTruthy, amendedNullCond]
  | obj fs => simp [parseActionToObject, jsTruthy, amendedNullCond]
  | arr xs => simp [parseActionToObject, jsTruthy, amendedNullCond]
  | str s =>
    by_cases hs : s = ""
    · subst hs
      exact ⟨fun _ => rfl, fun _ => rfl⟩
    · have ht : jsTruthy (JsVal.str s) = true := by simpa [jsTruthy] using hs
      by_cases htr : jsTrim s = ""
      · simp [parseActionToObject, ht, parseActionString, htr, amendedNullCond]
      · rcases hj : jsonBranch (jsTrim s).data with _ | v <;>
          rcases hf : funcBranch (jsTrim s).data with _ | v2 <;>
            rcases hsb : simpleBranch (jsTrim s).data with _ | v3 <;>
              simp [parseActionToObject, ht, parseActionString, htr, hj, hf, hsb,
                amendedNullCond]

theorem parseActionToObject_truthy {v : JsVal} (h : parseActionToObject v ≠ none) :
    jsTruthy v = true := by
  cases hjs : jsTruthy v
  · exact absurd (by simp [parseActionToObject, hjs]) h
  · rfl

/-- C10: `parseStepData` prefers the new-format fields — whenever
`step.thinking` is non-empty or `step.action` parses to a non-null object it
returns exactly those, independently of `step.description`; only when both
are absent does it parse `step.description`, taking the `<think>`/`<thinking>`
capture as the thinking and the `<answer>` capture (or, absent that tag, the
description with think/answer markup stripped) as the text the action is
parsed from. -/
theorem C10_parseStepData_precedence :
    (∀ (st : ExecutionStep) (s : String), st.thinking = some s → s ≠ "" →
        parseStepData st =
          (some s, if jsTruthy st.action then parseActionToObject st.action else none)) ∧
    (∀ (st : ExecutionStep) (a : JsVal), parseActionToObject st.action = some a →
        parseStepData st =
          ((match st.thinking with
            | some s => if s != "" then some s else none
            | none => none), some a)) ∧
    ∀ st : ExecutionStep,
      (st.thinking = none ∨ st.thinking = some "") →
      (if jsTruthy st.action then parseActionToObject st.action else none) = none →
      parseStepData st =
        (if st.description.getD "" = "" then (none, none)
         else (legacyThinking (st.description.getD ""),
               parseActionToObject (JsVal.str (answerText (st.description.getD ""))))) := by
  refine ⟨?_, ?_, ?_⟩
  · intro st s h hne
    simp [parseStepData, h, hne]
  · intro st a h
    have ht : jsTruthy st.action = true := parseActionToObject_truthy (by simp [h])
    simp [parseStepData, ht, h]
  · intro st ht ha
    rcases ht with h | h <;>
      by_cases hd : st.description.getD "" = "" <;>
        simp [parseStepData, h, ha, hd]

/-- Witness for C10: one instance per precedence branch. -/
theorem C10_witness :
    parseStepData ⟨1, JsVal.null, some "Think", some "desc", none, "t"⟩ =
      (some "Think", none) ∧
    parseStepData ⟨2, JsVal.str "Finish", none, some "desc", none, "t"⟩ =
      (none, some (JsVal.obj [("action", JsVal.str "Finish")])) ∧
    parseStepData ⟨3, JsVal.null, none, some "x y", none, "t"⟩ = (none, none) := by
  refine ⟨?_, ?_, ?_⟩
  · exact C10_parseStepData_precedence.1 _ "Think" rfl (by decide)
  · exact C10_parseStepData_precedence.2.1 _ (JsVal.obj [("action", JsVal.str "Finish")])
      (by rfl)
  · have h := C10_parseStepData_precedence.2.2 ⟨3, JsVal.null, none, some "x y", none, "t"⟩
      (Or.inl rfl) rfl
    rw [h, if_neg (by decide)]
    rfl

/-- C9 (counterexample): the claim fails as stated — in the function-call
form a parameter named `action` overwrites the `action` field the code
creates, so `Do(action="X")` yields a record whose `action` field is `"X"`,
not the call name `Do`. -/
theorem C9_counterexample :
    (parseActionToObject (JsVal.str "Do(action=\"X\")")).bind
        (fun v => getField v "action") = some (JsVal.str "X") ∧
    ("X" : String) ≠ "Do" := by
  exact ⟨rfl, by decide⟩

theorem beq_false_of_pred {p : Char → Bool} {c d : Char} (hc : p c = true)
    (hd : p d = false) : (c == d) = false := by
  cases h : c == d
  · rfl
  · have he : c = d := by simpa using h
    rw [he] at hc
    rw [hc] at hd
    cases hd

theorem takeWhile_all_append {p : Char → Bool} :
    ∀ (xs ys : List Char), (∀ c ∈ xs, p c = true) →
      (xs ++ ys).takeWhile p = xs ++ ys.takeWhile p := by
  intro xs
  induction xs with
  | nil =>
    intro ys _
    simp
  | cons c cs ih =>
    intro ys h
    have hc : p c = true := h c (List.mem_cons_self _ _)
    simp [List.takeWhile_cons, hc, ih ys (fun d hd => h d (List.mem_cons_of_mem _ hd))]

theorem takeWhile_head_false {p : Char → Bool} {c : Char} (cs : List Char)
    (h : p c = false) : (c :: cs).takeWhile p = [] := by
  simp [List.takeWhile_cons, h]

theorem takeWhile_all_stop {p : Char → Bool} {xs : List Char} {d : Char} {ys : List Char}
    (hall : ∀ c ∈ xs, p c = true) (hd : p d = false) :
    (xs ++ d :: ys).takeWhile p = xs := by
  rw [takeWhile_all_append xs (d :: ys) hall, takeWhile_head_false _ hd, List.append_nil]

theorem takeWhile_all_self {p : Char → Bool} {xs : List Char}
    (hall : ∀ c ∈ xs, p c = true) : xs.takeWhile p = xs := by
  have h := takeWhile_all_append xs [] hall
  simpa using h

theorem matchPairAt_not_word {c : Char} (cs : List Char) (h : isWordChar c = false) :
    matchPairAt (c :: cs) = none := by
  unfold matchPairAt
  rw [takeWhile_head_false _ h]
  simp

theorem scanParams_nil : ∀ fuel : Nat, scanParams fuel [] = [] := by
  intro fuel
  cases fuel <;> rfl

theorem mk_data_eq (s : String) : String.mk s.data = s := rfl

theorem matchValueAt_render {v : ParamVal} {rest : List Char}
    (hgood : goodVal v = true)
    (hrest : rest = [] ∨ ∃ ys, rest = ',' :: ys) :
    matchValueAt ((renderVal v).data ++ rest) = some (semVal v, rest) := by
  cases v with
  | dq s =>
    have h1 : (!s.data.isEmpty) = true ∧
        s.data.all (fun c => c != '"' && c != '{') = true := by
      simpa [goodVal, Bool.and_eq_true] using hgood
    have hne : s.data.isEmpty = false := by simpa using h1.1
    have hq : ∀ c ∈ s.data, (fun ch => ch != '"') c = true := by
      intro c hc
      have h2 := List.all_eq_true.mp h1.2 c hc
      simp only [Bool.and_eq_true] at h2
      exact h2.1
    have hflat : (renderVal (ParamVal.dq s)).data ++ rest = '"' :: (s.data ++ '"' :: rest) := by
      simp [renderVal, String.data_append]
    have htw : List.takeWhile (fun ch => ch != '"') (s.data ++ '"' :: rest) = s.data :=
      takeWhile_all_stop hq (by decide)
    rw [hflat]
    simp [matchValueAt, htw, List.drop_left, hne, semVal, mk_data_eq]
  | sq s =>
    have h1 : (!s.data.isEmpty) = true ∧
        s.data.all (fun c => c != sqChar && c != '{') = true := by
      simpa [goodVal, Bool.and_eq_true] using hgood
    have hne : s.data.isEmpty = false := by simpa using h1.1
    have hq : ∀ c ∈ s.data, (fun ch => ch != sqChar) c = true := by
      intro c hc
      have h2 := List.all_eq_true.mp h1.2 c hc
      simp only [Bool.and_eq_true] at h2
      exact h2.1
    have hqq : (sqChar == '"') = false := by decide
    have hflat : (renderVal (ParamVal.sq s)).data ++ rest =
        sqChar :: (s.data ++ sqChar :: rest) := by
      simp [renderVal, String.data_append, String.singleton]
    have htw : List.takeWhile (fun ch => ch != sqChar) (s.data ++ sqChar :: rest) = s.data :=
      takeWhile_all_stop hq (by simp)
    rw [hflat]
    simp [matchValueAt, hqq, htw, List.drop_left, hne, semVal, mk_data_eq]
  | digits s =>
    have h1 : (!s.data.isEmpty) = true ∧ s.data.all isDigitChar = true ∧
        s.data.length ≤ 15 := by
      simpa [goodVal, Bool.and_eq_true, and_assoc] using hgood
    have hne : s.data.isEmpty = false := by simpa using h1.1
    have hd : ∀ c ∈ s.data, isDigitChar c = true := List.all_eq_true.mp h1.2.1
    obtain ⟨c0, cs0, hc0⟩ : ∃ c0 cs0, s.data = c0 :: cs0 := by
      cases h : s.data with
      | nil => rw [h] at hne; cases hne
      | cons a l => exact ⟨a, l, rfl⟩
    have hc0d : isDigitChar c0 = true := hd c0 (by rw [hc0]; exact List.mem_cons_self _ _)
    have hnotq : (c0 == '"') = false := beq_false_of_pred hc0d (by decide)
    have hnotsq : (c0 == sqChar) = false := beq_false_of_pred hc0d (by decide)
    have htw : List.takeWhile isDigitChar (s.data ++ rest) = s.data := by
      rcases hrest with rfl | ⟨ys, rfl⟩
      · simpa using takeWhile_all_self hd
      · exact takeWhile_all_stop hd (by decide)
    have hflat : (renderVal (ParamVal.digits s)).data ++ rest = c0 :: (cs0 ++ rest) := by
      simp [renderVal, hc0]
    rw [hflat]
    have htw2 : List.takeWhile isDigitChar (c0 :: (cs0 ++ rest)) = c0 :: cs0 := by
      have : c0 :: (cs0 ++ rest) = s.data ++ rest := by rw [hc0]; simp
      rw [this, htw, hc0]
    have hdrop : (c0 :: (cs0 ++ rest)).drop (c0 :: cs0).length = rest := by
      have : c0 :: (cs0 ++ rest) = (c0 :: cs0) ++ rest := by simp
      rw [this, List.drop_left]
    simp [matchValueAt, hnotq, hnotsq, htw2, hdrop, semVal, hc0]
  | bare s =>
    have h1 : (!s.data.isEmpty) = true ∧ s.data.all isWordChar = true ∧
        (match s.data with
         | c :: _ => !c.isDigit
         | [] => true) = true := by
      simpa [goodVal, Bool.and_eq_true, and_assoc] using hgood
    have hne : s.data.isEmpty = false := by simpa using h1.1
    have hw : ∀ c ∈ s.data, isWordChar c = true := List.all_eq_true.mp h1.2.1
    obtain ⟨c0, cs0, hc0⟩ : ∃ c0 cs0, s.data = c0 :: cs0 := by
      cases h : s.data with
      | nil => rw [h] at hne; cases hne
      | cons a l => exact ⟨a, l, rfl⟩
    have hc0w : isWordChar c0 = true := hw c0 (by rw [hc0]; exact List.mem_cons_self _ _)
    have hc0nd : c0.isDigit = false := by
      have := h1.2.2
      rw [hc0] at this
      simpa using this
    have hnotq : (c0 == '"') = false := beq_false_of_pred hc0w (by decide)
    have hnotsq : (c0 == sqChar) = false := beq_false_of_pred hc0w (by decide)
    have htwd : List.takeWhile isDigitChar (c0 :: (cs0 ++ rest)) = [] :=
      takeWhile_head_false _ (by simp [isDigitChar, hc0nd])
    have htw : List.takeWhile isWordChar (s.data ++ rest) = s.data := by
      rcases hrest with rfl | ⟨ys, rfl⟩
      · simpa using takeWhile_all_self hw
      · exact takeWhile_all_stop hw (by decide)
    have hflat : (renderVal (ParamVal.bare s)).data ++ rest = c0 :: (cs0 ++ rest) := by
      simp [renderVal, hc0]
    rw [hflat]
    have htw2 : List.takeWhile isWordChar (c0 :: (cs0 ++ rest)) = c0 :: cs0 := by
      have : c0 :: (cs0 ++ rest) = s.data ++ rest := by rw [hc0]; simp
      rw [this, htw, hc0]
    have hdrop : (c0 :: (cs0 ++ rest)).drop (c0 :: cs0).length = rest := by
      have : c0 :: (cs0 ++ rest) = (c0 :: cs0) ++ rest := by simp
      rw [this, List.drop_left]
    simp [matchValueAt, hnotq, hnotsq, htwd, htw2, hdrop, semVal, ← hc0, mk_data_eq]
    constructor
    · rw [hc0]
      simp
    · have hlen : s.length = (c0 :: cs0).length := by
        rw [← hc0]
        rfl
      rw [hlen]
      exact hdrop

theorem matchPairAt_render {k : String} {v : ParamVal} {rest : List Char}
    (hk : isWordStr k = true) (hv : goodVal v = true)
    (hrest : rest = [] ∨ ∃ ys, rest = ',' :: ys) :
    matchPairAt (k.data ++ '=' :: ((renderVal v).data ++ rest)) =
      some ((k, semVal v), rest) := by
  have h1 : (!k.data.isEmpty) = true ∧ k.data.all isWordChar = true := by
    simpa [isWordStr, Bool.and_eq_true] using hk
  have hne : k.data.isEmpty = false := by simpa using h1.1
  have hw : ∀ c ∈ k.data, isWordChar c = true := List.all_eq_true.mp h1.2
  have htw : List.takeWhile isWordChar
      (k.data ++ '=' :: ((renderVal v).data ++ rest)) = k.data :=
    takeWhile_all_stop hw (by decide)
  simp [matchPairAt, htw, hne, List.drop_left, matchValueAt_render hv hrest, mk_data_eq]

theorem scanParams_step_some {fuel : Nat} {c : Char} {cs : List Char}
    {kv : String × JsVal} {rest : List Char}
    (h : matchPairAt (c :: cs) = some (kv, rest)) :
    scanParams (fuel + 1) (c :: cs) = kv :: scanParams fuel rest := by
  simp [scanParams, h]

theorem scanParams_step_none {fuel : Nat} {c : Char} {cs : List Char}
    (h : matchPairAt (c :: cs) = none) :
    scanParams (fuel + 1) (c :: cs) = scanParams fuel cs := by
  simp [scanParams, h]

theorem scanParams_render :
    ∀ (ps : List (String × ParamVal)) (fuel : Nat),
      goodParams ps = true → (renderParams ps).data.length < fuel →
      scanParams fuel (renderParams ps).data =
        ps.map (fun kv => (kv.1, semVal kv.2)) := by
  intro ps
  induction ps with
  | nil =>
    intro fuel _ _
    have h0 : (renderParams ([] : List (String × ParamVal))).data = [] := rfl
    rw [h0, scanParams_nil]
    rfl
  | cons kv ps' ih =>
    obtain ⟨k, v⟩ := kv
    intro fuel hgood hf
    simp only [goodParams, List.all_cons, Bool.and_eq_true] at hgood
    obtain ⟨⟨⟨hk, hka⟩, hv⟩, hps'⟩ := hgood
    have hps'' : goodParams ps' = true := hps'
    have hkne : k.data.isEmpty = false := by
      have h1 : (!k.data.isEmpty) = true ∧ k.data.all isWordChar = true := by
        simpa [isWordStr, Bool.and_eq_true] using hk
      simpa using h1.1
    obtain ⟨kc, kcs, hkc⟩ : ∃ kc kcs, k.data = kc :: kcs := by
      cases h : k.data with
      | nil => rw [h] at hkne; cases hkne
      | cons a l => exact ⟨a, l, rfl⟩
    cases ps' with
    | nil =>
      have hdata : (renderParams [(k, v)]).data =
          k.data ++ '=' :: ((renderVal v).data ++ []) := by
        simp [renderParams, String.data_append]
      rw [hdata] at hf ⊢
      rw [hkc] at hf ⊢
      simp only [List.cons_append] at hf ⊢
      cases fuel with
      | zero => simp at hf
      | succ f =>
        have hm := matchPairAt_render hk hv (Or.inl rfl)
        rw [hkc] at hm
        simp only [List.cons_append] at hm
        rw [scanParams_step_some hm, scanParams_nil]
        rfl
    | cons kv2 ps'' =>
      have hdata : (renderParams ((k, v) :: kv2 :: ps'')).data =
          k.data ++ '=' :: ((renderVal v).data ++
            ',' :: ' ' :: (renderParams (kv2 :: ps'')).data) := by
        simp [renderParams, String.data_append]
      rw [hdata] at hf ⊢
      have hflen : (renderParams (kv2 :: ps'')).data.length + 3 ≤
          (k.data ++ '=' :: ((renderVal v).data ++
            ',' :: ' ' :: (renderParams (kv2 :: ps'')).data)).length := by
        rw [hkc]
        simp [List.length_append]
        omega
      obtain _ | _ | _ | f := fuel
      · omega
      · omega
      · omega
      · rw [hkc]
        simp only [List.cons_append]
        have hm := matchPairAt_render hk hv
          (Or.inr ⟨' ' :: (renderParams (kv2 :: ps'')).data, rfl⟩)
        rw [hkc] at hm
        simp only [List.cons_append] at hm
        rw [scanParams_step_some hm]
        rw [scanParams_step_none (matchPairAt_not_word _ (by decide))]
        rw [scanParams_step_none (matchPairAt_not_word _ (by decide))]
        rw [ih f hps'' (by omega)]
        rfl

theorem isWordStr_parts {k : String} (hk : isWordStr k = true) :
    k.data.isEmpty = false ∧ ∀ c ∈ k.data, isWordChar c = true := by
  have h1 : (!k.data.isEmpty) = true ∧ k.data.all isWordChar = true := by
    simpa [isWordStr, Bool.and_eq_true] using hk
  exact ⟨by simpa using h1.1, List.all_eq_true.mp h1.2⟩

theorem wordChar_not_space {c : Char} (h : isWordChar c = true) : isJsSpace c = false := by
  cases hsp : isJsSpace c
  · rfl
  · exfalso
    simp only [isJsSpace, Bool.or_eq_true, beq_iff_eq] at hsp
    rcases hsp with ((((((rfl | rfl) | rfl) | rfl) | rfl) | rfl) | rfl) <;>
      exact absurd h (by decide)

theorem trimChars_of_ends {c d : Char} (cs : List Char)
    (h1 : isJsSpace c = false) (h2 : isJsSpace d = false) :
    trimChars (c :: (cs ++ [d])) = c :: (cs ++ [d]) := by
  unfold trimChars
  rw [show List.dropWhile isJsSpace (c :: (cs ++ [d])) = c :: (cs ++ [d]) from by
    simp [List.dropWhile_cons, h1]]
  rw [show (c :: (cs ++ [d])).reverse = d :: (cs.reverse ++ [c]) from by simp]
  rw [show List.dropWhile isJsSpace (d :: (cs.reverse ++ [c])) = d :: (cs.reverse ++ [c])
    from by simp [List.dropWhile_cons, h2]]
  simp

theorem jsTrim_of_ends {s : String} {c d : Char} {mid : List Char}
    (hs : s.data = c :: (mid ++ [d])) (h1 : isJsSpace c = false)
    (h2 : isJsSpace d = false) : jsTrim s = s := by
  unfold jsTrim
  rw [hs, trimChars_of_ends mid h1 h2, ← hs, mk_data_eq]

theorem jsonFragment_no_brace :
    ∀ cs : List Char, (∀ c ∈ cs, c ≠ '{') → jsonFragment cs = none := by
  intro cs
  induction cs with
  | nil => intro _; rfl
  | cons c cs' ih =>
    intro h
    have hc : (c == '{') = false := by
      simpa using h c (List.mem_cons_self _ _)
    simp [jsonFragment, jsonFragmentAt, hc,
      ih (fun d hd => h d (List.mem_cons_of_mem _ hd))]

theorem word_no_brace {k : String} (hk : isWordStr k = true) : '{' ∉ k.data := by
  intro hmem
  exact absurd ((isWordStr_parts hk).2 '{' hmem) (by decide)

theorem renderVal_no_brace {v : ParamVal} (hv : goodVal v = true) :
    '{' ∉ (renderVal v).data := by
  cases v with
  | dq s =>
    intro hmem
    have h1 : (!s.data.isEmpty) = true ∧
        s.data.all (fun c => c != '"' && c != '{') = true := by
      simpa [goodVal, Bool.and_eq_true] using hv
    simp only [renderVal, String.data_append, List.mem_append, List.mem_cons] at hmem
    rcases hmem with hmem | hmem
    · rcases hmem with hmem | hmem
      · simp at hmem
      · have h2 := List.all_eq_true.mp h1.2 '{' hmem
        simp at h2
    · simp at hmem
  | sq s =>
    intro hmem
    have h1 : (!s.data.isEmpty) = true ∧
        s.data.all (fun c => c != sqChar && c != '{') = true := by
      simpa [goodVal, Bool.and_eq_true] using hv
    simp only [renderVal, String.data_append, List.mem_append, List.mem_cons] at hmem
    rcases hmem with hmem | hmem
    · rcases hmem with hmem | hmem
      · rw [show (String.singleton sqChar).data = [sqChar] from rfl] at hmem
        exact absurd (List.mem_singleton.mp hmem) (by decide)
      · have h2 := List.all_eq_true.mp h1.2 '{' hmem
        exact absurd h2 (by decide)
    · rw [show (String.singleton sqChar).data = [sqChar] from rfl] at hmem
      exact absurd (List.mem_singleton.mp hmem) (by decide)
  | digits s =>
    intro hmem
    have h1 : (!s.data.isEmpty) = true ∧ s.data.all isDigitChar = true ∧
        s.data.length ≤ 15 := by
      simpa [goodVal, Bool.and_eq_true, and_assoc] using hv
    exact absurd (List.all_eq_true.mp h1.2.1 '{' hmem) (by decide)
  | bare s =>
    intro hmem
    have h1 : (!s.data.isEmpty) = true ∧ s.data.all isWordChar = true ∧
        (match s.data with
         | c :: _ => !c.isDigit
         | [] => true) = true := by
      simpa [goodVal, Bool.and_eq_true, and_assoc] using hv
    exact absurd (List.all_eq_true.mp h1.2.1 '{' hmem) (by decide)

theorem renderParams_no_brace :
    ∀ ps : List (String × ParamVal), goodParams ps = true →
      '{' ∉ (renderParams ps).data := by
  intro ps
  induction ps with
  | nil =>
    intro _ hmem
    simp [renderParams] at hmem
  | cons kv ps' ih =>
    obtain ⟨k, v⟩ := kv
    intro hgood hmem
    simp only [goodParams, List.all_cons, Bool.and_eq_true] at hgood
    obtain ⟨⟨⟨hk, hka⟩, hv⟩, hps'⟩ := hgood
    have hihk : '{' ∉ k.data := word_no_brace hk
    have hihv : '{' ∉ (renderVal v).data := renderVal_no_brace hv
    cases ps' with
    | nil =>
      have hdata : (renderParams [(k, v)]).data =
          k.data ++ '=' :: ((renderVal v).data ++ []) := by
        simp [renderParams, String.data_append]
      rw [hdata] at hmem
      rcases List.mem_append.mp hmem with h | h
      · exact hihk h
      · rcases List.mem_cons.mp h with h | h
        · exact absurd h (by decide)
        · rcases List.mem_append.mp h with h | h
          · exact hihv h
          · simp at h
    | cons kv2 ps'' =>
      have hihr : '{' ∉ (renderParams (kv2 :: ps'')).data := ih hps'
      have hdata : (renderParams ((k, v) :: kv2 :: ps'')).data =
          k.data ++ '=' :: ((renderVal v).data ++
            ',' :: ' ' :: (renderParams (kv2 :: ps'')).data) := by
        simp [renderParams, String.data_append]
      rw [hdata] at hmem
      rcases List.mem_append.mp hmem with h | h
      · exact hihk h
      · rcases List.mem_cons.mp h with h | h
        · exact absurd h (by decide)
        · rcases List.mem_append.mp h with h | h
          · exact hihv h
          · rcases List.mem_cons.mp h with h | h
            · exact absurd h (by decide)
            · rcases List.mem_cons.mp h with h | h
              · exact absurd h (by decide)
              · exact hihr h

theorem foldl_setField_fresh :
    ∀ (qs fs : List (String × JsVal)),
      (∀ q ∈ qs, ∀ p ∈ fs, p.1 ≠ q.1) → (qs.map Prod.fst).Nodup →
      qs.foldl (fun a kv => setField a kv.1 kv.2) fs = fs ++ qs := by
  intro qs
  induction qs with
  | nil =>
    intro fs _ _
    simp
  | cons q qs' ih =>
    intro fs hfresh hnd
    simp only [List.foldl_cons]
    have hset : setField fs q.1 q.2 = fs ++ [q] := by
      unfold setField
      have hany : fs.any (fun p => p.1 == q.1) = false := by
        cases hany : fs.any (fun p => p.1 == q.1)
        · rfl
        · exfalso
          rw [List.any_eq_true] at hany
          obtain ⟨p, hp, hpq⟩ := hany
          exact hfresh q (List.mem_cons_self _ _) p hp (by simpa using hpq)
      simp [hany]
    rw [hset]
    have hnd2 : q.1 ∉ qs'.map Prod.fst ∧ (qs'.map Prod.fst).Nodup := by
      rw [List.map_cons, List.nodup_cons] at hnd
      exact hnd
    rw [ih (fs ++ [q]) ?_ hnd2.2]
    · simp
    · intro q' hq' p hp
      rcases List.mem_append.mp hp with hp | hp
      · exact hfresh q' (List.mem_cons_of_mem _ hq') p hp
      · have hpq : p = q := by simpa using hp
        subst hpq
        intro hcontra
        apply hnd2.1
        rw [hcontra]
        exact List.mem_map_of_mem Prod.fst hq'

/-- C9 (amended): for every well-formed function-call string
`Name(k1=v1, k2=v2, …)` — keys distinct words different from `action`,
values non-empty brace-free quoted strings, digit runs of at most 15 digits,
or bare words not starting with a digit — `parseActionToObject` returns the
record whose `action` field is `Name` with one field per pair, quoted and
bare values kept as strings and digit runs converted to numbers. -/
theorem C9_amended_function_call (name : String) (ps : List (String × ParamVal))
    (hname : isWordStr name = true) (hps : goodParams ps = true)
    (hnd : (ps.map (fun kv => kv.1)).Nodup) :
    parseActionToObject (JsVal.str (renderCall name ps)) =
      some (JsVal.obj (("action", JsVal.str name) ::
        ps.map (fun kv => (kv.1, semVal kv.2)))) := by
  obtain ⟨hne0, hw⟩ := isWordStr_parts hname
  obtain ⟨nc, ncs, hnc⟩ : ∃ nc ncs, name.data = nc :: ncs := by
    cases h : name.data with
    | nil => rw [h] at hne0; cases hne0
    | cons a l => exact ⟨a, l, rfl⟩
  have hndata : (renderCall name ps).data =
      name.data ++ '(' :: ((renderParams ps).data ++ [')']) := by
    simp [renderCall, String.data_append]
  have hshape : (renderCall name ps).data =
      nc :: ((ncs ++ '(' :: (renderParams ps).data) ++ [')']) := by
    rw [hndata, hnc]
    simp
  have hncw : isWordChar nc = true := hw nc (by rw [hnc]; exact List.mem_cons_self _ _)
  have htrim : jsTrim (renderCall name ps) = renderCall name ps :=
    jsTrim_of_ends hshape (wordChar_not_space hncw) (by decide)
  have hnestr : (renderCall name ps) ≠ "" := by
    intro h0
    rw [h0] at hshape
    simp at hshape
  have htruthy : jsTruthy (JsVal.str (renderCall name ps)) = true := by
    simpa [jsTruthy] using hnestr
  have hnob : '{' ∉ (renderCall name ps).data := by
    rw [hndata]
    intro hmem
    rcases List.mem_append.mp hmem with h | h
    · exact word_no_brace hname h
    · rcases List.mem_cons.mp h with h | h
      · exact absurd h (by decide)
      · rcases List.mem_append.mp h with h | h
        · exact renderParams_no_brace ps hps h
        · exact absurd (List.mem_singleton.mp h) (by decide)
  have hjson : jsonBranch (renderCall name ps).data = none := by
    unfold jsonBranch
    rw [jsonFragment_no_brace _ (fun c hc he => hnob (he ▸ hc))]
  have htwname : List.takeWhile isWordChar
      (name.data ++ '(' :: ((renderParams ps).data ++ [')'])) = name.data :=
    takeWhile_all_stop hw (by decide)
  have hfdec : funcDecompose (renderCall name ps).data =
      some (name.data, (renderParams ps).data) := by
    rw [hndata]
    simp [funcDecompose, htwname, hne0, List.drop_left, List.reverse_append]
  have hkeys_fresh : ∀ q ∈ ps.map (fun kv => (kv.1, semVal kv.2)),
      ∀ p ∈ [("action", JsVal.str name)], p.1 ≠ q.1 := by
    intro q hq p hp
    obtain ⟨kv, hkv, rfl⟩ := List.mem_map.mp hq
    have hpq : p = ("action", JsVal.str name) := List.mem_singleton.mp hp
    subst hpq
    have hall := List.all_eq_true.mp hps kv hkv
    simp only [Bool.and_eq_true] at hall
    obtain ⟨⟨hk, hka⟩, hv⟩ := hall
    rw [bne_iff_ne] at hka
    intro hcontra
    exact hka (by rw [← hcontra])
  have hnd' : ((ps.map (fun kv => (kv.1, semVal kv.2))).map Prod.fst).Nodup := by
    simpa [List.map_map, Function.comp] using hnd
  have hfunc : funcBranch (renderCall name ps).data =
      some (JsVal.obj (("action", JsVal.str name) ::
        ps.map (fun kv => (kv.1, semVal kv.2)))) := by
    unfold funcBranch
    rw [hfdec]
    show some (JsVal.obj
        ((scanParams ((renderParams ps).data.length + 1) (renderParams ps).data).foldl
          (fun fs kv => setField fs kv.1 kv.2)
          [("action", JsVal.str (String.mk name.data))])) = _
    rw [scanParams_render ps ((renderParams ps).data.length + 1) hps (by omega)]
    rw [mk_data_eq name]
    rw [foldl_setField_fresh _ _ hkeys_fresh hnd']
    simp
  have hbeq : ((renderCall name ps) == "") = false := by
    simpa using hnestr
  have hstr : parseActionString (renderCall name ps) =
      some (JsVal.obj (("action", JsVal.str name) ::
        ps.map (fun kv => (kv.1, semVal kv.2)))) := by
    unfold parseActionString
    simp only [htrim]
    simp [hbeq, hjson, hfunc]
  simp [parseActionToObject, htruthy, hstr]

/-- Witness for C9 amended at `Tap(x=100, y=200)`. -/
theorem C9_witness :
    parseActionToObject (JsVal.str (renderCall "Tap"
        [("x", ParamVal.digits "100"), ("y", ParamVal.digits "200")])) =
      some (JsVal.obj [("action", JsVal.str "Tap"), ("x", JsVal.number 100),
        ("y", JsVal.number 200)]) := by
  exact C9_amended_function_call "Tap"
    [("x", ParamVal.digits "100"), ("y", ParamVal.digits "200")]
    (by decide) (by decide) (by decide)

end AutoPhone
